import Mathlib

/-!
Verification of the worker-pool schedulers found in the
`node-js-interview-guide` repository against its natural-language
specification.  The repository contains three concrete pool
implementations:

* the `worker_threads` `WorkerPool` of the worker-threads chapter
  (`worker-pool.js`): workers created once, a `freeWorkers` stack,
  an unbounded `queue`, `runTask` returning a promise, `close`
  terminating every worker;
* the `WorkerPool` of `examples/14-worker-threads/worker-demo.js`:
  fixed slots, a fresh `Worker` spawned per task, `execute`, `finishTask`,
  `terminate`;
* the child-process `WorkerPool` of the child-process chapter
  (`pool.js`): forked processes, `runTask(task, callback)`,
  a `message` handler, an `exit` handler that unconditionally respawns,
  and `destroy` that kills every worker.

Each implementation is embedded as a small state machine: a state
structure mirroring the JS object fields, a total step function on
events (environment events such as worker messages, errors and exits
are explicit), and a decidable validity predicate stating which events
the runtime can actually deliver in a given state (e.g. a terminated
worker thread emits no `message`).  Promise/callback settlements are
recorded in a `resolved` log, task hand-offs (`postMessage` / `send`)
in a `started` log.
-/

/-- Outcome of a submission call (`runTask` / `execute`).  The spec's
error taxonomy names `QueueFullError`, `PoolClosedError` and
`PoolCrashBudgetExceededError` as possible rejections of a submission;
the concrete pools have no rejection path, which the theorems below
make explicit. -/
inductive SubmitOutcome where
  | accepted (tid : Nat)
  | rejected (err : String)
deriving Repr, DecidableEq

/-! ### The worker_threads pool of `worker-pool.js` (part_013) -/

/-- A worker thread of the `worker_threads` pool: whether the thread is
still alive (a terminated or crashed thread emits no further events)
and the `worker.currentTask` field (the task id whose promise the
message/error handlers settle). -/
structure WTWorker where
  alive : Bool
  currentTask : Option Nat
deriving Repr, DecidableEq

/-- State of the `worker_threads` pool.  `workers` is the `this.workers`
array (workers are addressed by index), `freeWorkers` the
`this.freeWorkers` array of indices (JS `push` appends, `pop` removes
the last element), `queue` the `this.queue` array of task ids
(`push` appends, `shift` removes the head).  `resolved` logs every
settlement of a task promise (`true` = resolve, `false` = reject),
`started` logs every `postMessage` hand-off in order, `submitted` the
task ids in submission order; `nextTid` generates task ids. -/
structure WTState where
  workers : List WTWorker
  freeWorkers : List Nat
  queue : List Nat
  resolved : List (Nat × Bool)
  started : List Nat
  submitted : List Nat
  nextTid : Nat
deriving Repr, DecidableEq

/-- Modify the element at index `n` (JS mutates `this.workers[i]` in
place); out-of-range indices leave the list unchanged. -/
def modAt (f : α → α) : Nat → List α → List α
  | _, [] => []
  | 0, a :: as => f a :: as
  | n + 1, a :: as => a :: modAt f n as

/-- JS `Array.prototype.pop`: remove and return the last element. -/
def popLast (l : List α) : Option (α × List α) :=
  match l.getLast? with
  | some a => some (a, l.dropLast)
  | none => none

/-- The pool constructor: `poolSize` calls to `addWorker`, each pushing
a fresh worker onto `workers` and onto `freeWorkers`. -/
def wtInit (poolSize : Nat) : WTState :=
  { workers := List.replicate poolSize ⟨true, none⟩
    freeWorkers := List.range poolSize
    queue := []
    resolved := []
    started := []
    submitted := []
    nextTid := 0 }

/-- `runTaskOnWorker(worker, task)`: set `worker.currentTask = task`
and `worker.postMessage(task.data)` (logged in `started`). -/
def wtAssign (s : WTState) (w tid : Nat) : WTState :=
  { s with
    workers := modAt (fun wk => { wk with currentTask := some tid }) w s.workers
    started := s.started ++ [tid] }

/-- `runNext()`: if the queue is non-empty and a free worker can be
popped, shift the queue head onto that worker; otherwise do nothing. -/
def wtRunNext (s : WTState) : WTState :=
  match s.queue with
  | [] => s
  | t :: rest =>
    match popLast s.freeWorkers with
    | some (w, free) => wtAssign { s with queue := rest, freeWorkers := free } w t
    | none => s

/-- Events of the `worker_threads` pool: a `runTask` submission, a
worker `message` (result arrives), a worker `error` (the thread threw
and is terminated by the runtime), and `close` (terminate every
worker). -/
inductive WTEvent where
  | runTask
  | message (w : Nat)
  | error (w : Nat)
  | close
deriving Repr, DecidableEq

/-- One step of the `worker_threads` pool.

* `runTask`: wrap the payload into a task (fresh id), pop a free
  worker and hand the task over, else push it on the queue.  The JS
  function returns a promise and has no failure path.
* `message w`: the `worker.on('message')` handler — resolve
  `worker.currentTask`, clear it, push the worker back on
  `freeWorkers`, then `runNext()`.
* `error w`: the `worker.on('error')` handler — if a task is in
  flight, reject it and clear `currentTask`; the thread itself is dead
  afterwards.  The handler does **not** push the worker back on
  `freeWorkers` and does not replace it.
* `close`: `worker.terminate()` on every worker; no other field is
  touched (no closed flag, the queue and `freeWorkers` are kept). -/
def wtStep (s : WTState) : WTEvent → WTState
  | .runTask =>
    let tid := s.nextTid
    let s1 := { s with nextTid := tid + 1, submitted := s.submitted ++ [tid] }
    match popLast s1.freeWorkers with
    | some (w, free) => wtAssign { s1 with freeWorkers := free } w tid
    | none => { s1 with queue := s1.queue ++ [tid] }
  | .message w =>
    match (s.workers.get? w).bind (·.currentTask) with
    | some t =>
      wtRunNext
        { s with
          workers := modAt (fun wk => { wk with currentTask := none }) w s.workers
          resolved := s.resolved ++ [(t, true)]
          freeWorkers := s.freeWorkers ++ [w] }
    | none => s
  | .error w =>
    let s1 :=
      match (s.workers.get? w).bind (·.currentTask) with
      | some t =>
        { s with
          workers := modAt (fun wk => { wk with currentTask := none }) w s.workers
          resolved := s.resolved ++ [(t, false)] }
      | none => s
    { s1 with workers := modAt (fun wk => { wk with alive := false }) w s1.workers }
  | .close =>
    { s with workers := s.workers.map (fun wk => { wk with alive := false }) }

/-- Which events the runtime can deliver: submissions and `close` are
caller moves and always possible; a `message` only comes from a live
thread that holds a task; an `error` only from a live thread. -/
def wtValid (s : WTState) : WTEvent → Bool
  | .runTask => true
  | .message w =>
    match s.workers.get? w with
    | some wk => wk.alive && wk.currentTask.isSome
    | none => false
  | .error w =>
    match s.workers.get? w with
    | some wk => wk.alive
    | none => false
  | .close => true

/-- Run a list of events. -/
def wtRun (s : WTState) : List WTEvent → WTState
  | [] => s
  | e :: es => wtRun (wtStep s e) es

/-- All events of the list are deliverable in sequence. -/
def wtValidSeq (s : WTState) : List WTEvent → Bool
  | [] => true
  | e :: es => wtValid s e && wtValidSeq (wtStep s e) es

/-- `runTask` as the caller observes it: the promise is always handed
back (`accepted`); the source has no rejection branch. -/
def wtRunTaskOutcome (s : WTState) : SubmitOutcome × WTState :=
  (.accepted s.nextTid, wtStep s .runTask)

example : (wtRun (wtInit 1) [.runTask]).started = [0] := by decide
example : (wtRun (wtInit 1) [.runTask, .runTask]).queue = [1] := by decide
example : (wtRun (wtInit 1) [.runTask, .message 0]).resolved = [(0, true)] := by decide
example : wtValidSeq (wtInit 1) [.runTask, .runTask, .close] = true := by decide
example : (wtRun (wtInit 1) [.runTask, .error 0]).resolved = [(0, false)] := by decide

/-! ### The worker-thread pool of `examples/14-worker-threads/worker-demo.js` -/

/-- A slot of the demo pool's `this.workers` array: the `busy` flag,
the `worker` field (`none` when no `Worker` is attached, `some b` when
one is, with `b` recording whether the thread is still alive), and the
task bound — via the handler closures — to the currently attached
worker. -/
structure WDSlot where
  busy : Bool
  worker : Option Bool
  currentTask : Option Nat
deriving Repr, DecidableEq

/-- State of the demo pool: the fixed `slots` array created by the
constructor, the unbounded `queue`, and the settlement / hand-off logs
as in `WTState`. -/
structure WDState where
  slots : List WDSlot
  queue : List Nat
  resolved : List (Nat × Bool)
  started : List Nat
  submitted : List Nat
  nextTid : Nat
deriving Repr, DecidableEq

/-- The demo pool constructor: `poolSize` slots, each
`{ worker: null, busy: false }`. -/
def wdInit (poolSize : Nat) : WDState :=
  { slots := List.replicate poolSize ⟨false, none, none⟩
    queue := []
    resolved := []
    started := []
    submitted := []
    nextTid := 0 }

/-- `runTask(workerSlot, task)`: mark the slot busy and spawn a fresh
`Worker` for the task (`new Worker(__filename, {workerData: task.data})`). -/
def wdRunTask (s : WDState) (i tid : Nat) : WDState :=
  { s with
    slots := modAt (fun sl => { sl with busy := true, worker := some true,
                                        currentTask := some tid }) i s.slots
    started := s.started ++ [tid] }

/-- `finishTask(workerSlot)`: free the slot (`busy = false`,
`worker = null`) and, if the queue is non-empty, shift the next task
and run it on this slot. -/
def wdFinishTask (s : WDState) (i : Nat) : WDState :=
  match s.queue with
  | [] =>
    { s with
      slots := modAt (fun sl => { sl with busy := false, worker := none,
                                          currentTask := none }) i s.slots }
  | t :: rest =>
    wdRunTask
      { s with
        slots := modAt (fun sl => { sl with busy := false, worker := none,
                                            currentTask := none }) i s.slots
        queue := rest } i t

/-- Events of the demo pool: an `execute` submission, and per-slot
worker `message`, `error` and `exit code` events, plus `terminate`. -/
inductive WDEvent where
  | execute
  | message (i : Nat)
  | error (i : Nat)
  | exit (i : Nat) (code : Nat)
  | terminate
deriving Repr, DecidableEq

/-- One step of the demo pool.

* `execute`: find the first non-busy slot (`this.workers.find(w => !w.busy)`)
  and run the task there, else push it on the queue.  No failure path.
* `message i`: resolve the slot's task, then `finishTask`.
* `error i`: reject the slot's task, then `finishTask`.
* `exit i code`: the `worker.on('exit')` handler — if `code ≠ 0`, reject
  the task bound to that worker; `finishTask` is **not** called.  The
  thread is gone either way.
* `terminate`: `await slot.worker.terminate()` on every attached
  worker; no flag is set and no other field is touched. -/
def wdStep (s : WDState) : WDEvent → WDState
  | .execute =>
    let tid := s.nextTid
    let s1 := { s with nextTid := tid + 1, submitted := s.submitted ++ [tid] }
    match s1.slots.findIdx? (fun sl => !sl.busy) with
    | some i => wdRunTask s1 i tid
    | none => { s1 with queue := s1.queue ++ [tid] }
  | .message i =>
    match (s.slots.get? i).bind (·.currentTask) with
    | some t => wdFinishTask { s with resolved := s.resolved ++ [(t, true)] } i
    | none => s
  | .error i =>
    match (s.slots.get? i).bind (·.currentTask) with
    | some t => wdFinishTask { s with resolved := s.resolved ++ [(t, false)] } i
    | none => s
  | .exit i code =>
    if code ≠ 0 then
      match (s.slots.get? i).bind (·.currentTask) with
      | some t =>
        { s with
          resolved := s.resolved ++ [(t, false)]
          slots := modAt (fun sl => { sl with worker := sl.worker.map (fun _ => false) })
            i s.slots }
      | none =>
        { s with
          slots := modAt (fun sl => { sl with worker := sl.worker.map (fun _ => false) })
            i s.slots }
    else
      { s with
        slots := modAt (fun sl => { sl with worker := sl.worker.map (fun _ => false) })
          i s.slots }
  | .terminate =>
    { s with slots :=
        s.slots.map (fun sl => { sl with worker := sl.worker.map (fun _ => false) }) }

/-- Deliverable events: `message`/`error`/`exit` only from a slot whose
attached worker thread is still alive. -/
def wdValid (s : WDState) : WDEvent → Bool
  | .execute => true
  | .message i =>
    match s.slots.get? i with
    | some sl => sl.worker = some true && sl.currentTask.isSome
    | none => false
  | .error i =>
    match s.slots.get? i with
    | some sl => sl.worker = some true && sl.currentTask.isSome
    | none => false
  | .exit i _ =>
    match s.slots.get? i with
    | some sl => sl.worker = some true
    | none => false
  | .terminate => true

/-- Run a list of events. -/
def wdRun (s : WDState) : List WDEvent → WDState
  | [] => s
  | e :: es => wdRun (wdStep s e) es

/-- All events of the list are deliverable in sequence. -/
def wdValidSeq (s : WDState) : List WDEvent → Bool
  | [] => true
  | e :: es => wdValid s e && wdValidSeq (wdStep s e) es

/-- `execute` as the caller observes it: the promise is always handed
back; the source has no rejection branch. -/
def wdExecuteOutcome (s : WDState) : SubmitOutcome × WDState :=
  (.accepted s.nextTid, wdStep s .execute)

example : (wdRun (wdInit 1) [.execute, .execute, .execute]).queue = [1, 2] := by decide
example : (wdRun (wdInit 1) [.execute, .message 0]).resolved = [(0, true)] := by decide
example : (wdRun (wdInit 2) [.execute, .execute, .execute]).slots.countP (·.busy) = 2 := by
  decide

/-! ### The child-process pool of the child-process chapter (`pool.js`) -/

/-- A forked worker process: its identity (processes are respawned, so
positions do not identify them), the `busy` flag, the task whose
callback the `message` handler will invoke, and whether `destroy()`
has sent it a kill signal. -/
structure CPWorker where
  wid : Nat
  busy : Bool
  currentTask : Option Nat
  killed : Bool
deriving Repr, DecidableEq

/-- State of the child-process pool: the `this.workers` array, the
`this.queue` of pending `{task, callback}` pairs, the settlement and
hand-off logs, and the id generators. -/
structure CPState where
  workers : List CPWorker
  queue : List Nat
  resolved : List (Nat × Bool)
  started : List Nat
  nextWid : Nat
  nextTid : Nat
deriving Repr, DecidableEq

/-- `createWorker()`: fork a fresh process (not busy, not killed) and
push it onto `this.workers`. -/
def cpCreateWorker (s : CPState) : CPState :=
  { s with
    workers := s.workers ++ [⟨s.nextWid, false, none, false⟩]
    nextWid := s.nextWid + 1 }

/-- The constructor: `size` calls to `createWorker`. -/
def cpInit : Nat → CPState
  | 0 => { workers := [], queue := [], resolved := [], started := [],
           nextWid := 0, nextTid := 0 }
  | n + 1 => cpCreateWorker (cpInit n)

/-- Mark the first non-busy worker busy and send it the task
(`worker.busy = true; worker.callback = callback; worker.process.send(task)`);
returns `none` when every worker is busy. -/
def cpSendFirstFree (tid : Nat) : List CPWorker → Option (List CPWorker)
  | [] => none
  | w :: ws =>
    if w.busy then
      match cpSendFirstFree tid ws with
      | some ws' => some (w :: ws')
      | none => none
    else
      some ({ w with busy := true, currentTask := some tid } :: ws)

/-- JS `this.workers.splice(this.workers.indexOf(worker), 1)` with
unique worker objects: remove the first record with the given id. -/
def cpRemoveWid (wid : Nat) : List CPWorker → List CPWorker
  | [] => []
  | w :: ws => if w.wid = wid then ws else w :: cpRemoveWid wid ws

/-- `processQueue()`: if the queue is non-empty and some worker is
free, shift the queue head and send it to the first free worker. -/
def cpProcessQueue (s : CPState) : CPState :=
  match s.queue with
  | [] => s
  | t :: rest =>
    match cpSendFirstFree t s.workers with
    | some ws => { s with workers := ws, queue := rest, started := s.started ++ [t] }
    | none => s

/-- Events of the child-process pool: a `runTask` submission, a worker
`message` (`ok = false` models a `msg.error` reply), a worker process
`exit`, and `destroy`. -/
inductive CPEvent where
  | runTask
  | message (wid : Nat) (ok : Bool)
  | exit (wid : Nat)
  | destroy
deriving Repr, DecidableEq

/-- Look up a worker by id in a worker list. -/
def cpFindIn (wid : Nat) (l : List CPWorker) : Option CPWorker :=
  l.find? (fun w => w.wid = wid)

/-- Look up a worker by id. -/
def cpFind (s : CPState) (wid : Nat) : Option CPWorker :=
  cpFindIn wid s.workers

/-- One step of the child-process pool.

* `runTask`: send the task to the first free worker
  (`this.workers.find(w => !w.busy)`), else push it on the queue.  No
  failure path.
* `message wid ok`: the `process.on('message')` handler — clear `busy`,
  invoke the stored callback with the result (or with the error when
  the reply carries `msg.error`), then `processQueue()`.
* `exit wid`: the `process.on('exit')` handler — remove the dead
  worker from `this.workers` and unconditionally `createWorker()` a
  replacement.  An in-flight task of the dead worker is lost (its
  callback is never invoked).
* `destroy`: `w.process.kill()` on every worker; nothing else. -/
def cpStep (s : CPState) : CPEvent → CPState
  | .runTask =>
    let tid := s.nextTid
    let s1 := { s with nextTid := tid + 1 }
    match cpSendFirstFree tid s1.workers with
    | some ws => { s1 with workers := ws, started := s1.started ++ [tid] }
    | none => { s1 with queue := s1.queue ++ [tid] }
  | .message wid ok =>
    match (cpFind s wid).bind (·.currentTask) with
    | some t =>
      cpProcessQueue
        { s with
          workers := s.workers.map (fun x =>
            if x.wid = wid then { x with busy := false, currentTask := none } else x)
          resolved := s.resolved ++ [(t, ok)] }
    | none => s
  | .exit wid =>
    if (cpFind s wid).isSome then
      cpCreateWorker { s with workers := cpRemoveWid wid s.workers }
    else s
  | .destroy =>
    { s with workers := s.workers.map (fun w => { w with killed := true }) }

/-- Deliverable events: a `message` only from an existing busy worker
holding a task; an `exit` only for an existing worker. -/
def cpValid (s : CPState) : CPEvent → Bool
  | .runTask => true
  | .message wid _ =>
    match cpFind s wid with
    | some w => w.busy && w.currentTask.isSome
    | none => false
  | .exit wid => (cpFind s wid).isSome
  | .destroy => true

/-- Run a list of events. -/
def cpRun (s : CPState) : List CPEvent → CPState
  | [] => s
  | e :: es => cpRun (cpStep s e) es

/-- All events of the list are deliverable in sequence. -/
def cpValidSeq (s : CPState) : List CPEvent → Bool
  | [] => true
  | e :: es => cpValid s e && cpValidSeq (cpStep s e) es

/-- `runTask` as the caller observes it: always accepted; the source
has no rejection branch. -/
def cpRunTaskOutcome (s : CPState) : SubmitOutcome × CPState :=
  (.accepted s.nextTid, cpStep s .runTask)

example : (cpInit 2).workers.map (·.wid) = [0, 1] := by decide
example : (cpRun (cpInit 2) [.exit 0]).workers.map (·.wid) = [1, 2] := by decide
example : (cpRun (cpInit 2) [.destroy, .exit 0, .exit 1]).workers.map (·.killed)
    = [false, false] := by decide
example : (cpRun (cpInit 1) [.runTask, .message 0 true]).resolved = [(0, true)] := by decide
example : (cpRun (cpInit 1) [.runTask, .runTask, .message 0 true]).started = [0, 1] := by
  decide

/-! ### List helper lemmas for the embeddings -/

theorem length_modAt (f : α → α) (n : Nat) (l : List α) :
    (modAt f n l).length = l.length := by
  induction l generalizing n with
  | nil => cases n <;> rfl
  | cons a as ih =>
    cases n with
    | zero => rfl
    | succ m => simpa [modAt] using ih m

theorem mem_modAt {f : α → α} {n : Nat} {l : List α} {x : α}
    (h : x ∈ modAt f n l) : x ∈ l ∨ ∃ y, y ∈ l ∧ x = f y := by
  induction l generalizing n with
  | nil => simp [modAt] at h
  | cons a as ih =>
    cases n with
    | zero =>
      rcases List.mem_cons.mp h with h | h
      · exact Or.inr ⟨a, List.mem_cons_self a as, h⟩
      · exact Or.inl (List.mem_cons_of_mem a h)
    | succ m =>
      rcases List.mem_cons.mp h with h | h
      · exact Or.inl (h ▸ List.mem_cons_self a as)
      · rcases ih h with h | ⟨y, hy, hxy⟩
        · exact Or.inl (List.mem_cons_of_mem a h)
        · exact Or.inr ⟨y, List.mem_cons_of_mem a hy, hxy⟩

theorem get?_modAt_self {f : α → α} {n : Nat} {l : List α} :
    (modAt f n l).get? n = (l.get? n).map f := by
  induction l generalizing n with
  | nil => simp [modAt]
  | cons a as ih =>
    cases n with
    | zero => simp [modAt]
    | succ m => simpa [modAt] using ih

theorem get?_modAt_ne {f : α → α} {n m : Nat} {l : List α} (h : m ≠ n) :
    (modAt f n l).get? m = l.get? m := by
  induction l generalizing n m with
  | nil => simp [modAt]
  | cons a as ih =>
    cases n with
    | zero =>
      cases m with
      | zero => exact absurd rfl h
      | succ k => simp [modAt]
    | succ j =>
      cases m with
      | zero => simp [modAt]
      | succ k => simpa [modAt] using ih (fun hh => h (by simp [hh]))

theorem modAt_append_cons {f : α → α} (l₁ : List α) (a : α) (l₂ : List α) :
    modAt f l₁.length (l₁ ++ a :: l₂) = l₁ ++ f a :: l₂ := by
  induction l₁ with
  | nil => rfl
  | cons x xs ih => simpa [modAt] using ih

theorem get?_split {l : List α} {n : Nat} {a : α} (h : l.get? n = some a) :
    ∃ l₁ l₂, l = l₁ ++ a :: l₂ ∧ l₁.length = n := by
  induction l generalizing n with
  | nil => simp at h
  | cons x xs ih =>
    cases n with
    | zero =>
      refine ⟨[], xs, ?_, rfl⟩
      simp at h
      simp [h]
    | succ m =>
      simp only [List.get?_cons_succ] at h
      obtain ⟨l₁, l₂, rfl, hlen⟩ := ih h
      exact ⟨x :: l₁, l₂, rfl, by simp [hlen]⟩

theorem popLast_eq_some {l rest : List α} {a : α}
    (h : popLast l = some (a, rest)) : l = rest ++ [a] := by
  unfold popLast at h
  cases hg : l.getLast? with
  | none => simp [hg] at h
  | some b =>
    simp only [hg, Option.some.injEq, Prod.mk.injEq] at h
    obtain ⟨rfl, rfl⟩ := h
    exact (List.dropLast_append_getLast? _ hg).symm

theorem popLast_concat (l : List α) (a : α) : popLast (l ++ [a]) = some (a, l) := by
  simp [popLast, List.getLast?_concat]

theorem popLast_none {l : List α} (h : popLast l = none) : l = [] := by
  unfold popLast at h
  cases hg : l.getLast? with
  | none => exact List.getLast?_eq_none_iff.mp hg
  | some b => simp [hg] at h

theorem filterMap_modAt_curr_eq {f : WTWorker → WTWorker}
    (hf : ∀ x, (f x).currentTask = x.currentTask) (n : Nat) (l : List WTWorker) :
    (modAt f n l).filterMap (·.currentTask) = l.filterMap (·.currentTask) := by
  induction l generalizing n with
  | nil => cases n <;> rfl
  | cons a as ih =>
    cases n with
    | zero => simp [modAt, List.filterMap_cons, hf a]
    | succ m => simp [modAt, List.filterMap_cons, ih m]

theorem filterMap_map_curr_eq {f : WTWorker → WTWorker}
    (hf : ∀ x, (f x).currentTask = x.currentTask) (l : List WTWorker) :
    (l.map f).filterMap (·.currentTask) = l.filterMap (·.currentTask) := by
  induction l with
  | nil => rfl
  | cons a as ih => simp [List.filterMap_cons, hf a, ih]

theorem filterMap_modAt_assign {l : List WTWorker} {w : Nat} {wk : WTWorker} {t : Nat}
    (hget : l.get? w = some wk) (hc : wk.currentTask = none) :
    List.Perm
      ((modAt (fun x => { x with currentTask := some t }) w l).filterMap (·.currentTask))
      (t :: l.filterMap (·.currentTask)) := by
  obtain ⟨l₁, l₂, rfl, hlen⟩ := get?_split hget
  rw [← hlen, modAt_append_cons]
  simp only [List.filterMap_append, List.filterMap_cons, hc]
  exact List.perm_middle

theorem filterMap_modAt_clear {l : List WTWorker} {w : Nat} {wk : WTWorker} {t : Nat}
    (hget : l.get? w = some wk) (hc : wk.currentTask = some t) :
    List.Perm (l.filterMap (·.currentTask))
      (t :: (modAt (fun x => { x with currentTask := none }) w l).filterMap
          (·.currentTask)) := by
  obtain ⟨l₁, l₂, rfl, hlen⟩ := get?_split hget
  rw [← hlen, modAt_append_cons]
  simp only [List.filterMap_append, List.filterMap_cons, hc]
  exact List.perm_middle

/-! ### A fully terminated `worker_threads` pool resolves nothing further

After `close()` (or once every worker has crashed) no thread is alive,
so no `message` or `error` event can be delivered any more, and those
are the only transitions that settle a promise.  Tasks still queued —
or submitted later — are left pending forever. -/

theorem wtStep_runTask (s : WTState) :
    wtStep s .runTask =
      match popLast s.freeWorkers with
      | some (w, free) =>
        wtAssign
          { s with nextTid := s.nextTid + 1, submitted := s.submitted ++ [s.nextTid],
                   freeWorkers := free } w s.nextTid
      | none =>
        { s with nextTid := s.nextTid + 1, submitted := s.submitted ++ [s.nextTid],
                 queue := s.queue ++ [s.nextTid] } := rfl

theorem wtDead_step {s : WTState} (hd : ∀ w ∈ s.workers, w.alive = false)
    (e : WTEvent) (hv : wtValid s e = true) :
    (wtStep s e).resolved = s.resolved ∧
      ∀ w ∈ (wtStep s e).workers, w.alive = false := by
  cases e with
  | runTask =>
    rw [wtStep_runTask]
    cases h : popLast s.freeWorkers with
    | none => exact ⟨rfl, hd⟩
    | some p =>
      obtain ⟨w, free⟩ := p
      refine ⟨rfl, ?_⟩
      intro x hx
      simp only [wtAssign] at hx
      rcases mem_modAt hx with hx' | ⟨y, hy, rfl⟩
      · exact hd x hx'
      · exact hd y hy
  | message w =>
    exfalso
    have hv2 : (match s.workers.get? w with
        | some wk => wk.alive && wk.currentTask.isSome
        | none => false) = true := hv
    cases hg : s.workers.get? w with
    | none =>
      rw [hg] at hv2
      exact Bool.false_ne_true hv2
    | some wk =>
      rw [hg] at hv2
      have hv' : (wk.alive && wk.currentTask.isSome) = true := hv2
      have : wk.alive = false := hd wk (List.get?_mem hg)
      rw [this] at hv'
      exact Bool.false_ne_true ((Bool.and_eq_true _ _).mp hv').1
  | error w =>
    exfalso
    have hv2 : (match s.workers.get? w with
        | some wk => wk.alive
        | none => false) = true := hv
    cases hg : s.workers.get? w with
    | none =>
      rw [hg] at hv2
      exact Bool.false_ne_true hv2
    | some wk =>
      rw [hg] at hv2
      have hv' : wk.alive = true := hv2
      have : wk.alive = false := hd wk (List.get?_mem hg)
      rw [this] at hv'
      exact Bool.false_ne_true hv'
  | close =>
    refine ⟨rfl, ?_⟩
    intro x hx
    simp only [wtStep] at hx
    rcases List.mem_map.mp hx with ⟨y, _, rfl⟩
    rfl

theorem wtDead_run {s : WTState} (hd : ∀ w ∈ s.workers, w.alive = false)
    {evs : List WTEvent} (hv : wtValidSeq s evs = true) :
    (wtRun s evs).resolved = s.resolved := by
  induction evs generalizing s with
  | nil => rfl
  | cons e es ih =>
    simp only [wtValidSeq, Bool.and_eq_true] at hv
    obtain ⟨hres, hdead⟩ := wtDead_step hd e hv.1
    simp only [wtRun]
    rw [ih hdead hv.2, hres]

theorem wtClose_dead (s : WTState) :
    ∀ w ∈ (wtStep s .close).workers, w.alive = false := by
  intro x hx
  simp only [wtStep] at hx
  rcases List.mem_map.mp hx with ⟨y, _, rfl⟩
  rfl

/-! ### Task-id bookkeeping of the `worker_threads` pool

`wtTaskIds` collects every place a submitted task can live: still
queued, in flight on a worker, or settled.  The invariant `WTUniq`
states that no task id occurs twice across those places — in
particular a task promise is settled at most once — together with the
bookkeeping facts that make the invariant inductive. -/

def wtTaskIds (s : WTState) : List Nat :=
  s.queue ++ s.workers.filterMap (·.currentTask) ++ s.resolved.map Prod.fst

def WTUniq (s : WTState) : Prop :=
  (wtTaskIds s).Nodup ∧
  (∀ t ∈ wtTaskIds s, t < s.nextTid) ∧
  s.freeWorkers.Nodup ∧
  (∀ w ∈ s.freeWorkers, ∃ wk, s.workers.get? w = some wk ∧ wk.currentTask = none)

theorem filterMap_curr_replicate_none (n : Nat) :
    (List.replicate n (⟨true, none⟩ : WTWorker)).filterMap (·.currentTask) = [] := by
  induction n with
  | zero => rfl
  | succ m ih => simp only [List.replicate_succ, List.filterMap_cons, ih]

theorem get?_replicate_of_lt {a : α} {n m : Nat} (h : m < n) :
    (List.replicate n a).get? m = some a := by
  induction n generalizing m with
  | zero => omega
  | succ k ih =>
    cases m with
    | zero => rfl
    | succ j =>
      rw [List.replicate_succ]
      simpa using ih (by omega)

theorem wtUniq_init (n : Nat) : WTUniq (wtInit n) := by
  refine ⟨?_, ?_, ?_, ?_⟩
  · simp [wtTaskIds, wtInit, filterMap_curr_replicate_none]
  · intro t ht
    simp [wtTaskIds, wtInit, filterMap_curr_replicate_none] at ht
  · exact List.nodup_range n
  · intro w hw
    exact ⟨⟨true, none⟩, get?_replicate_of_lt (List.mem_range.mp hw), rfl⟩

theorem perm_assign {Q R F F' : List Nat} {t : Nat} (hF : List.Perm F' (t :: F)) :
    List.Perm (Q ++ F' ++ R) (t :: (Q ++ F ++ R)) :=
  ((hF.append_left Q).append_right R).trans (List.perm_middle.append_right R)

theorem perm_resolve {Q R F F' : List Nat} {t : Nat} (hF : List.Perm F (t :: F')) :
    List.Perm (Q ++ F' ++ (R ++ [t])) (Q ++ F ++ R) := by
  have h1 : List.Perm (Q ++ F' ++ (R ++ [t])) (t :: (Q ++ F' ++ R)) := by
    rw [← List.append_assoc]
    exact List.perm_append_singleton _ _
  have h2 : List.Perm (Q ++ F ++ R) (t :: (Q ++ F' ++ R)) := perm_assign hF
  exact h1.trans h2.symm

theorem nodup_concat_of_not_mem {l : List α} {a : α} (hl : l.Nodup) (ha : a ∉ l) :
    (l ++ [a]).Nodup :=
  (List.perm_append_singleton a l).symm.nodup (List.nodup_cons.mpr ⟨ha, hl⟩)

theorem not_mem_of_nodup_concat {l : List α} {a : α} (h : (l ++ [a]).Nodup) : a ∉ l :=
  fun ha => (List.disjoint_of_nodup_append h) ha (List.mem_singleton.mpr rfl)

theorem wtUniq_runNext {s : WTState}
    (hnd : (wtTaskIds s).Nodup)
    (hlt : ∀ t ∈ wtTaskIds s, t < s.nextTid)
    (hfnd : s.freeWorkers.Nodup)
    (hfree : ∀ w ∈ s.freeWorkers,
      ∃ wk, s.workers.get? w = some wk ∧ wk.currentTask = none) :
    WTUniq (wtRunNext s) := by
  unfold wtRunNext
  cases hq : s.queue with
  | nil => exact ⟨hnd, hlt, hfnd, hfree⟩
  | cons t rest =>
    cases hp : popLast s.freeWorkers with
    | none => exact ⟨hnd, hlt, hfnd, hfree⟩
    | some p =>
      obtain ⟨w, free₀⟩ := p
      have hsplit : s.freeWorkers = free₀ ++ [w] := popLast_eq_some hp
      have hwmem : w ∈ s.freeWorkers := by
        rw [hsplit]; exact List.mem_append_right _ (List.mem_singleton.mpr rfl)
      obtain ⟨wk, hget, hcurr⟩ := hfree w hwmem
      have hfm := filterMap_modAt_assign (t := t) hget hcurr
      have hperm :
          List.Perm
            (wtTaskIds (wtAssign { s with queue := rest, freeWorkers := free₀ } w t))
            (t :: (rest ++ s.workers.filterMap (·.currentTask)
              ++ s.resolved.map Prod.fst)) := perm_assign hfm
      have hids : wtTaskIds s
          = t :: (rest ++ s.workers.filterMap (·.currentTask)
              ++ s.resolved.map Prod.fst) := by
        show s.queue ++ _ ++ _ = _
        rw [hq]
        rfl
      have hnodup : (free₀ ++ [w]).Nodup := hsplit ▸ hfnd
      refine ⟨?_, ?_, ?_, ?_⟩
      · exact hperm.symm.nodup (hids ▸ hnd)
      · intro u hu
        have hu' : u ∈ wtTaskIds s := by
          rw [hids]; exact hperm.mem_iff.mp hu
        exact hlt u hu'
      · exact hnodup.of_append_left
      · intro w' hw'
        have hw'mem : w' ∈ s.freeWorkers := by
          rw [hsplit]; exact List.mem_append_left _ hw'
        obtain ⟨wk', hget', hcurr'⟩ := hfree w' hw'mem
        have hwne : w' ≠ w := fun heq =>
          (List.disjoint_of_nodup_append hnodup) (heq ▸ hw') (List.mem_singleton.mpr rfl)
        exact ⟨wk', (get?_modAt_ne hwne).trans hget', hcurr'⟩

theorem wtUniq_step {s : WTState} (h : WTUniq s) (e : WTEvent) : WTUniq (wtStep s e) := by
  obtain ⟨hnd, hlt, hfnd, hfree⟩ := h
  have hfresh : s.nextTid ∉ wtTaskIds s := fun hmem => absurd (hlt _ hmem) (lt_irrefl _)
  cases e with
  | runTask =>
    rw [wtStep_runTask]
    cases hp : popLast s.freeWorkers with
    | none =>
      have hperm :
          List.Perm
            ((s.queue ++ [s.nextTid]) ++ s.workers.filterMap (·.currentTask)
              ++ s.resolved.map Prod.fst)
            (s.nextTid :: wtTaskIds s) :=
        (((List.perm_append_singleton s.nextTid s.queue).append_right _).append_right _)
      refine ⟨?_, ?_, hfnd, hfree⟩
      · exact hperm.symm.nodup (List.nodup_cons.mpr ⟨hfresh, hnd⟩)
      · intro u hu
        rcases List.mem_cons.mp (hperm.mem_iff.mp hu) with rfl | hmem
        · exact Nat.lt_succ_self _
        · exact Nat.lt_succ_of_lt (hlt _ hmem)
    | some p =>
      obtain ⟨w, free₀⟩ := p
      have hsplit : s.freeWorkers = free₀ ++ [w] := popLast_eq_some hp
      have hwmem : w ∈ s.freeWorkers := by
        rw [hsplit]; exact List.mem_append_right _ (List.mem_singleton.mpr rfl)
      obtain ⟨wk, hget, hcurr⟩ := hfree w hwmem
      have hfm := filterMap_modAt_assign (t := s.nextTid) hget hcurr
      have hperm :
          List.Perm
            (wtTaskIds (wtAssign
              { s with nextTid := s.nextTid + 1, submitted := s.submitted ++ [s.nextTid],
                       freeWorkers := free₀ } w s.nextTid))
            (s.nextTid :: wtTaskIds s) := perm_assign hfm
      have hnodup : (free₀ ++ [w]).Nodup := hsplit ▸ hfnd
      refine ⟨?_, ?_, hnodup.of_append_left, ?_⟩
      · exact hperm.symm.nodup (List.nodup_cons.mpr ⟨hfresh, hnd⟩)
      · intro u hu
        rcases List.mem_cons.mp (hperm.mem_iff.mp hu) with rfl | hmem
        · exact Nat.lt_succ_self _
        · exact Nat.lt_succ_of_lt (hlt _ hmem)
      · intro w' hw'
        have hw'mem : w' ∈ s.freeWorkers := by
          rw [hsplit]; exact List.mem_append_left _ hw'
        obtain ⟨wk', hget', hcurr'⟩ := hfree w' hw'mem
        have hwne : w' ≠ w := fun heq =>
          (List.disjoint_of_nodup_append hnodup) (heq ▸ hw') (List.mem_singleton.mpr rfl)
        exact ⟨wk', (get?_modAt_ne hwne).trans hget', hcurr'⟩
  | message w =>
    cases hb : (s.workers.get? w).bind (·.currentTask) with
    | none =>
      simp only [wtStep]
      rw [hb]
      exact ⟨hnd, hlt, hfnd, hfree⟩
    | some t =>
      simp only [wtStep]
      rw [hb]
      obtain ⟨wk, hget, hcurr⟩ := Option.bind_eq_some.mp hb
      have hfm := filterMap_modAt_clear hget hcurr
      have hwnot : w ∉ s.freeWorkers := fun hmem => by
        obtain ⟨wk2, hget2, hcurr2⟩ := hfree w hmem
        rw [hget] at hget2
        rw [Option.some.injEq] at hget2
        rw [← hget2] at hcurr2
        rw [hcurr2] at hcurr
        exact Option.noConfusion hcurr
      have hmidperm :
          List.Perm
            (s.queue
              ++ (modAt (fun x => { x with currentTask := none }) w
                    s.workers).filterMap (·.currentTask)
              ++ (s.resolved.map Prod.fst ++ [t]))
            (wtTaskIds s) := perm_resolve hfm
      have hmapres : ((s.resolved ++ [(t, true)]).map Prod.fst)
          = s.resolved.map Prod.fst ++ [t] := by simp
      refine wtUniq_runNext ?_ ?_ ?_ ?_
      · show (s.queue ++ _ ++ ((s.resolved ++ [(t, true)]).map Prod.fst)).Nodup
        rw [hmapres]
        exact hmidperm.symm.nodup hnd
      · intro u hu
        have hu2 : u ∈ s.queue
            ++ (modAt (fun x => { x with currentTask := none }) w
                  s.workers).filterMap (·.currentTask)
            ++ (s.resolved.map Prod.fst ++ [t]) := by
          have : wtTaskIds { s with
              workers := modAt (fun x => { x with currentTask := none }) w s.workers,
              resolved := s.resolved ++ [(t, true)],
              freeWorkers := s.freeWorkers ++ [w] }
              = s.queue
                ++ (modAt (fun x => { x with currentTask := none }) w
                      s.workers).filterMap (·.currentTask)
                ++ (s.resolved.map Prod.fst ++ [t]) := by
            show s.queue ++ _ ++ ((s.resolved ++ [(t, true)]).map Prod.fst) = _
            rw [hmapres]
          rw [← this]
          exact hu
        exact hlt u (hmidperm.mem_iff.mp hu2)
      · exact nodup_concat_of_not_mem hfnd hwnot
      · intro w' hw'
        rcases List.mem_append.mp hw' with hw' | hw'
        · have hwne : w' ≠ w := fun heq => hwnot (heq ▸ hw')
          obtain ⟨wk', hget', hcurr'⟩ := hfree w' hw'
          exact ⟨wk', (get?_modAt_ne hwne).trans hget', hcurr'⟩
        · have heq : w' = w := List.mem_singleton.mp hw'
          subst heq
          refine ⟨{ wk with currentTask := none }, ?_, rfl⟩
          rw [get?_modAt_self, hget]
          rfl
  | error w =>
    cases hb : (s.workers.get? w).bind (·.currentTask) with
    | none =>
      simp only [wtStep]
      rw [hb]
      have hfmk :
          (modAt (fun x => { x with alive := false }) w s.workers).filterMap
              (·.currentTask)
            = s.workers.filterMap (·.currentTask) :=
        filterMap_modAt_curr_eq (f := fun x => { x with alive := false })
          (fun _ => rfl) w s.workers
      refine ⟨?_, ?_, hfnd, ?_⟩
      · show (s.queue ++ _ ++ _).Nodup
        rw [hfmk]
        exact hnd
      · intro u hu
        have hu2 : u ∈ wtTaskIds s := by
          have : wtTaskIds { s with
              workers := modAt (fun x => { x with alive := false }) w s.workers }
              = wtTaskIds s := by
            show s.queue ++ _ ++ _ = _
            rw [hfmk]
            rfl
          rw [← this]
          exact hu
        exact hlt u hu2
      · intro w' hw'
        obtain ⟨wk', hget', hcurr'⟩ := hfree w' hw'
        by_cases hwe : w' = w
        · subst hwe
          refine ⟨{ wk' with alive := false }, ?_, hcurr'⟩
          rw [get?_modAt_self, hget']
          rfl
        · exact ⟨wk', (get?_modAt_ne hwe).trans hget', hcurr'⟩
    | some t =>
      simp only [wtStep]
      rw [hb]
      obtain ⟨wk, hget, hcurr⟩ := Option.bind_eq_some.mp hb
      have hfm := filterMap_modAt_clear hget hcurr
      have hfmk :
          (modAt (fun x => { x with alive := false }) w
              (modAt (fun x => { x with currentTask := none }) w s.workers)).filterMap
              (·.currentTask)
            = (modAt (fun x => { x with currentTask := none }) w s.workers).filterMap
              (·.currentTask) :=
        filterMap_modAt_curr_eq (f := fun x => { x with alive := false })
          (fun _ => rfl) w _
      have hmidperm :
          List.Perm
            (s.queue
              ++ (modAt (fun x => { x with currentTask := none }) w
                    s.workers).filterMap (·.currentTask)
              ++ (s.resolved.map Prod.fst ++ [t]))
            (wtTaskIds s) := perm_resolve hfm
      have hmapres : ((s.resolved ++ [(t, false)]).map Prod.fst)
          = s.resolved.map Prod.fst ++ [t] := by simp
      have hwnot : w ∉ s.freeWorkers := fun hmem => by
        obtain ⟨wk2, hget2, hcurr2⟩ := hfree w hmem
        rw [hget] at hget2
        rw [Option.some.injEq] at hget2
        rw [← hget2] at hcurr2
        rw [hcurr2] at hcurr
        exact Option.noConfusion hcurr
      refine ⟨?_, ?_, hfnd, ?_⟩
      · show (s.queue ++ _ ++ ((s.resolved ++ [(t, false)]).map Prod.fst)).Nodup
        rw [hmapres, hfmk]
        exact hmidperm.symm.nodup hnd
      · intro u hu
        have hu2 : u ∈ s.queue
            ++ (modAt (fun x => { x with currentTask := none }) w
                  s.workers).filterMap (·.currentTask)
            ++ (s.resolved.map Prod.fst ++ [t]) := by
          have heq2 : wtTaskIds { s with
              workers := modAt (fun x => { x with alive := false }) w
                (modAt (fun x => { x with currentTask := none }) w s.workers),
              resolved := s.resolved ++ [(t, false)] }
              = s.queue
                ++ (modAt (fun x => { x with currentTask := none }) w
                      s.workers).filterMap (·.currentTask)
                ++ (s.resolved.map Prod.fst ++ [t]) := by
            show s.queue ++ _ ++ ((s.resolved ++ [(t, false)]).map Prod.fst) = _
            rw [hmapres, hfmk]
          rw [← heq2]
          exact hu
        exact hlt u (hmidperm.mem_iff.mp hu2)
      · intro w' hw'
        have hwne : w' ≠ w := fun heq => hwnot (heq ▸ hw')
        obtain ⟨wk', hget', hcurr'⟩ := hfree w' hw'
        exact ⟨wk',
          (get?_modAt_ne hwne).trans ((get?_modAt_ne hwne).trans hget'), hcurr'⟩
  | close =>
    simp only [wtStep]
    have hfmk :
        (s.workers.map (fun x => { x with alive := false })).filterMap (·.currentTask)
          = s.workers.filterMap (·.currentTask) :=
      filterMap_map_curr_eq (f := fun x => { x with alive := false })
        (fun _ => rfl) s.workers
    refine ⟨?_, ?_, hfnd, ?_⟩
    · show (s.queue ++ _ ++ _).Nodup
      rw [hfmk]
      exact hnd
    · intro u hu
      have hu2 : u ∈ wtTaskIds s := by
        have heq2 : wtTaskIds { s with
            workers := s.workers.map (fun x => { x with alive := false }) }
            = wtTaskIds s := by
          show s.queue ++ _ ++ _ = _
          rw [hfmk]
          rfl
        rw [← heq2]
        exact hu
      exact hlt u hu2
    · intro w' hw'
      obtain ⟨wk', hget', hcurr'⟩ := hfree w' hw'
      refine ⟨{ wk' with alive := false }, ?_, hcurr'⟩
      rw [List.get?_map, hget']
      rfl

theorem wtUniq_run_of {s : WTState} (h : WTUniq s) (evs : List WTEvent) :
    WTUniq (wtRun s evs) := by
  induction evs generalizing s with
  | nil => exact h
  | cons e es ih => exact ih (wtUniq_step h e)

theorem wtUniq_run (n : Nat) (evs : List WTEvent) : WTUniq (wtRun (wtInit n) evs) :=
  wtUniq_run_of (wtUniq_init n) evs

/-! ### Step equations and the FIFO bookkeeping of the `worker_threads` pool -/

theorem wtStep_message_some {s : WTState} {w t : Nat}
    (hb : (s.workers.get? w).bind (·.currentTask) = some t) :
    wtStep s (.message w) =
      wtRunNext
        { s with
          workers := modAt (fun wk => { wk with currentTask := none }) w s.workers
          resolved := s.resolved ++ [(t, true)]
          freeWorkers := s.freeWorkers ++ [w] } := by
  simp only [wtStep]
  rw [hb]

theorem wtStep_message_none {s : WTState} {w : Nat}
    (hb : (s.workers.get? w).bind (·.currentTask) = none) :
    wtStep s (.message w) = s := by
  simp only [wtStep]
  rw [hb]

theorem wtStep_error_some {s : WTState} {w t : Nat}
    (hb : (s.workers.get? w).bind (·.currentTask) = some t) :
    wtStep s (.error w) =
      { s with
        workers := modAt (fun wk => { wk with alive := false }) w
          (modAt (fun wk => { wk with currentTask := none }) w s.workers)
        resolved := s.resolved ++ [(t, false)] } := by
  simp only [wtStep]
  rw [hb]

theorem wtStep_error_none {s : WTState} {w : Nat}
    (hb : (s.workers.get? w).bind (·.currentTask) = none) :
    wtStep s (.error w) =
      { s with workers := modAt (fun wk => { wk with alive := false }) w s.workers } := by
  simp only [wtStep]
  rw [hb]

theorem wtRunNext_nil {s : WTState} (h : s.queue = []) : wtRunNext s = s := by
  unfold wtRunNext
  rw [h]

theorem wtRunNext_cons {s : WTState} {t : Nat} {rest : List Nat} (hq : s.queue = t :: rest)
    {w : Nat} {free : List Nat} (hp : popLast s.freeWorkers = some (w, free)) :
    wtRunNext s = wtAssign { s with queue := rest, freeWorkers := free } w t := by
  unfold wtRunNext
  rw [hq, hp]

/-- The FIFO bookkeeping: a free worker implies an empty queue (so a
submission is queued only when no worker is free), the tasks handed to
workers followed by the still-queued tasks are exactly the submitted
tasks in submission order, and the submission order is `0, 1, 2, …`. -/
def WTFifo (s : WTState) : Prop :=
  (s.freeWorkers ≠ [] → s.queue = []) ∧
  s.started ++ s.queue = s.submitted ∧
  s.submitted = List.range s.nextTid

theorem wtFifo_init (n : Nat) : WTFifo (wtInit n) :=
  ⟨fun _ => rfl, rfl, rfl⟩

theorem wtFifo_step {s : WTState} (h : WTFifo s) (e : WTEvent) : WTFifo (wtStep s e) := by
  obtain ⟨h1, h2, h3⟩ := h
  cases e with
  | runTask =>
    rw [wtStep_runTask]
    cases hp : popLast s.freeWorkers with
    | none =>
      refine ⟨fun hf => absurd (popLast_none hp) hf, ?_, ?_⟩
      · show s.started ++ (s.queue ++ [s.nextTid]) = s.submitted ++ [s.nextTid]
        rw [← List.append_assoc, h2]
      · show s.submitted ++ [s.nextTid] = List.range (s.nextTid + 1)
        rw [h3, List.range_succ]
    | some p =>
      obtain ⟨w, free₀⟩ := p
      have hfne : s.freeWorkers ≠ [] := by
        rw [popLast_eq_some hp]
        simp
      have hqnil : s.queue = [] := h1 hfne
      have hsub : s.submitted = s.started := by
        rw [← h2, hqnil, List.append_nil]
      refine ⟨fun _ => hqnil, ?_, ?_⟩
      · show (s.started ++ [s.nextTid]) ++ s.queue = s.submitted ++ [s.nextTid]
        rw [hqnil, List.append_nil, hsub]
      · show s.submitted ++ [s.nextTid] = List.range (s.nextTid + 1)
        rw [h3, List.range_succ]
  | message w =>
    cases hb : (s.workers.get? w).bind (·.currentTask) with
    | none =>
      rw [wtStep_message_none hb]
      exact ⟨h1, h2, h3⟩
    | some t =>
      rw [wtStep_message_some hb]
      set m : WTState :=
        { s with
          workers := modAt (fun wk => { wk with currentTask := none }) w s.workers
          resolved := s.resolved ++ [(t, true)]
          freeWorkers := s.freeWorkers ++ [w] } with hm
      have hmq : m.queue = s.queue := rfl
      have hmf : m.freeWorkers = s.freeWorkers ++ [w] := rfl
      by_cases hq : s.queue = []
      · rw [wtRunNext_nil (hmq.trans hq)]
        exact ⟨fun _ => hq, h2, h3⟩
      · obtain ⟨t', rest, hq'⟩ : ∃ t' rest, s.queue = t' :: rest := by
          cases hc : s.queue with
          | nil => exact absurd hc hq
          | cons a b => exact ⟨a, b, rfl⟩
        have hfree_nil : s.freeWorkers = [] := by
          by_contra hf
          exact hq (h1 hf)
        have hp2 : popLast m.freeWorkers = some (w, s.freeWorkers) := by
          rw [hmf]
          exact popLast_concat s.freeWorkers w
        rw [wtRunNext_cons (hmq.trans hq') hp2]
        refine ⟨fun hf => absurd hfree_nil hf, ?_, h3⟩
        show (s.started ++ [t']) ++ rest = s.submitted
        rw [List.append_assoc, List.singleton_append, ← hq']
        exact h2
  | error w =>
    cases hb : (s.workers.get? w).bind (·.currentTask) with
    | none =>
      rw [wtStep_error_none hb]
      exact ⟨h1, h2, h3⟩
    | some t =>
      rw [wtStep_error_some hb]
      exact ⟨h1, h2, h3⟩
  | close => exact ⟨h1, h2, h3⟩

theorem wtFifo_run_of {s : WTState} (h : WTFifo s) (evs : List WTEvent) :
    WTFifo (wtRun s evs) := by
  induction evs generalizing s with
  | nil => exact h
  | cons e es ih => exact ih (wtFifo_step h e)

theorem wtFifo_run (n : Nat) (evs : List WTEvent) : WTFifo (wtRun (wtInit n) evs) :=
  wtFifo_run_of (wtFifo_init n) evs

/-! ### Slot and worker-count bookkeeping of the demo and child-process pools -/

theorem wdStep_execute (s : WDState) :
    wdStep s .execute =
      match s.slots.findIdx? (fun sl => !sl.busy) with
      | some i =>
        wdRunTask
          { s with nextTid := s.nextTid + 1, submitted := s.submitted ++ [s.nextTid] }
          i s.nextTid
      | none =>
        { s with nextTid := s.nextTid + 1, submitted := s.submitted ++ [s.nextTid],
                 queue := s.queue ++ [s.nextTid] } := rfl

theorem wdRunTask_slots_length (s : WDState) (i tid : Nat) :
    (wdRunTask s i tid).slots.length = s.slots.length :=
  length_modAt _ _ _

theorem wdFinishTask_slots_length (s : WDState) (i : Nat) :
    (wdFinishTask s i).slots.length = s.slots.length := by
  unfold wdFinishTask
  cases hq : s.queue with
  | nil => exact length_modAt _ _ _
  | cons t rest => exact (wdRunTask_slots_length _ _ _).trans (length_modAt _ _ _)

theorem wdStep_slots_length (s : WDState) (e : WDEvent) :
    (wdStep s e).slots.length = s.slots.length := by
  cases e with
  | execute =>
    rw [wdStep_execute]
    cases hf : s.slots.findIdx? (fun sl => !sl.busy) with
    | some i => exact wdRunTask_slots_length _ _ _
    | none => rfl
  | message i =>
    simp only [wdStep]
    cases hb : (s.slots.get? i).bind (·.currentTask) with
    | some t => exact wdFinishTask_slots_length _ _
    | none => rfl
  | error i =>
    simp only [wdStep]
    cases hb : (s.slots.get? i).bind (·.currentTask) with
    | some t => exact wdFinishTask_slots_length _ _
    | none => rfl
  | exit i code =>
    simp only [wdStep]
    by_cases hc : code ≠ 0
    · rw [if_pos hc]
      cases hb : (s.slots.get? i).bind (·.currentTask) with
      | some t => exact length_modAt _ _ _
      | none => exact length_modAt _ _ _
    · rw [if_neg hc]
      exact length_modAt _ _ _
  | terminate =>
    simp only [wdStep]
    exact List.length_map _ _

theorem wdRun_slots_length (s : WDState) (evs : List WDEvent) :
    (wdRun s evs).slots.length = s.slots.length := by
  induction evs generalizing s with
  | nil => rfl
  | cons e es ih => exact (ih (wdStep s e)).trans (wdStep_slots_length s e)

theorem wdInit_slots_length (n : Nat) : (wdInit n).slots.length = n :=
  List.length_replicate n _

theorem findIdx?_none_of_all {p : α → Bool} {l : List α} (h : ∀ a ∈ l, p a = false) :
    ∀ i, l.findIdx? p i = none := by
  induction l with
  | nil => intro i; rfl
  | cons a as ih =>
    intro i
    have ha : p a = false := h a (List.mem_cons_self a as)
    have has : ∀ x ∈ as, p x = false := fun x hx => h x (List.mem_cons_of_mem a hx)
    simp only [List.findIdx?, ha]
    exact ih has (i + 1)

theorem cpSendFirstFree_length {tid : Nat} :
    ∀ {l l' : List CPWorker}, cpSendFirstFree tid l = some l' → l'.length = l.length := by
  intro l
  induction l with
  | nil => intro l' h; exact absurd h (by simp [cpSendFirstFree])
  | cons w ws ih =>
    intro l' h
    by_cases hb : w.busy
    · rw [cpSendFirstFree, if_pos hb] at h
      cases hs : cpSendFirstFree tid ws with
      | some ws' =>
        rw [hs] at h
        rw [Option.some.injEq] at h
        rw [← h]
        simp [ih hs]
      | none => rw [hs] at h; exact absurd h (by simp)
    · rw [cpSendFirstFree, if_neg hb] at h
      rw [Option.some.injEq] at h
      rw [← h]
      simp

theorem cpRemoveWid_length {wid : Nat} :
    ∀ {l : List CPWorker}, (cpFindIn wid l).isSome = true →
      (cpRemoveWid wid l).length + 1 = l.length := by
  intro l
  induction l with
  | nil => intro h; exact absurd h (by simp [cpFindIn])
  | cons w ws ih =>
    intro h
    by_cases hw : w.wid = wid
    · rw [cpRemoveWid, if_pos hw]
      rfl
    · rw [cpRemoveWid, if_neg hw]
      have h2 : (cpFindIn wid ws).isSome = true := by
        rw [cpFindIn, List.find?] at h
        have hb : (decide (w.wid = wid)) = false := by simp [hw]
        rw [hb] at h
        exact h
      simp only [List.length_cons]
      rw [ih h2]

theorem cpStep_runTask (s : CPState) :
    cpStep s .runTask =
      match cpSendFirstFree s.nextTid s.workers with
      | some ws =>
        { s with workers := ws, started := s.started ++ [s.nextTid],
                 nextTid := s.nextTid + 1 }
      | none =>
        { s with queue := s.queue ++ [s.nextTid], nextTid := s.nextTid + 1 } := rfl

theorem cpProcessQueue_workers_length (s : CPState) :
    (cpProcessQueue s).workers.length = s.workers.length := by
  unfold cpProcessQueue
  cases hq : s.queue with
  | nil => rfl
  | cons t rest =>
    show (match cpSendFirstFree t s.workers with
        | some ws =>
          ({ s with workers := ws, queue := rest,
                    started := s.started ++ [t] } : CPState)
        | none => s).workers.length = s.workers.length
    cases hs : cpSendFirstFree t s.workers with
    | some ws => exact cpSendFirstFree_length hs
    | none => rfl

theorem cpStep_workers_length (s : CPState) (e : CPEvent) :
    (cpStep s e).workers.length = s.workers.length := by
  cases e with
  | runTask =>
    rw [cpStep_runTask]
    cases hs : cpSendFirstFree s.nextTid s.workers with
    | some ws => exact cpSendFirstFree_length hs
    | none => rfl
  | message wid ok =>
    simp only [cpStep]
    cases hb : (cpFind s wid).bind (·.currentTask) with
    | none => rfl
    | some t =>
      exact (cpProcessQueue_workers_length _).trans (List.length_map _ _)
  | exit wid =>
    simp only [cpStep]
    by_cases hm : (cpFind s wid).isSome = true
    · rw [if_pos hm]
      show (cpRemoveWid wid s.workers ++ [_]).length = s.workers.length
      rw [List.length_append]
      exact cpRemoveWid_length hm
    · rw [if_neg hm]
  | destroy =>
    simp only [cpStep]
    exact List.length_map _ _

theorem cpRun_workers_length (s : CPState) (evs : List CPEvent) :
    (cpRun s evs).workers.length = s.workers.length := by
  induction evs generalizing s with
  | nil => rfl
  | cons e es ih => exact (ih (cpStep s e)).trans (cpStep_workers_length s e)

theorem cpInit_workers_length (n : Nat) : (cpInit n).workers.length = n := by
  induction n with
  | zero => rfl
  | succ m ih =>
    show ((cpInit m).workers ++ [_]).length = m + 1
    simp [ih]

theorem wtRunNext_workers_length (s : WTState) :
    (wtRunNext s).workers.length = s.workers.length := by
  unfold wtRunNext
  cases hq : s.queue with
  | nil => rfl
  | cons t rest =>
    show (match popLast s.freeWorkers with
        | some (w, free) =>
          wtAssign { s with queue := rest, freeWorkers := free } w t
        | none => s).workers.length = s.workers.length
    cases hp : popLast s.freeWorkers with
    | some p =>
      obtain ⟨w, free⟩ := p
      exact length_modAt _ _ _
    | none => rfl

theorem wtStep_workers_length (s : WTState) (e : WTEvent) :
    (wtStep s e).workers.length = s.workers.length := by
  cases e with
  | runTask =>
    rw [wtStep_runTask]
    cases hp : popLast s.freeWorkers with
    | some p =>
      obtain ⟨w, free⟩ := p
      exact length_modAt _ _ _
    | none => rfl
  | message w =>
    cases hb : (s.workers.get? w).bind (·.currentTask) with
    | some t =>
      rw [wtStep_message_some hb]
      exact (wtRunNext_workers_length _).trans (length_modAt _ _ _)
    | none => rw [wtStep_message_none hb]
  | error w =>
    cases hb : (s.workers.get? w).bind (·.currentTask) with
    | some t =>
      rw [wtStep_error_some hb]
      exact (length_modAt _ _ _).trans (length_modAt _ _ _)
    | none =>
      rw [wtStep_error_none hb]
      exact length_modAt _ _ _
  | close =>
    simp only [wtStep]
    exact List.length_map _ _

theorem wtRun_workers_length (s : WTState) (evs : List WTEvent) :
    (wtRun s evs).workers.length = s.workers.length := by
  induction evs generalizing s with
  | nil => rfl
  | cons e es ih => exact (ih (wtStep s e)).trans (wtStep_workers_length s e)

theorem cpStep_exit_of_present {s : CPState} {wid : Nat}
    (h : (cpFind s wid).isSome = true) :
    cpStep s (.exit wid) =
      cpCreateWorker { s with workers := cpRemoveWid wid s.workers } := by
  simp only [cpStep]
  rw [if_pos h]

/-! ### Claim theorems -/

/-- C3: starting from a pool of size `n`, under every sequence of
submissions, completions, crashes, respawns and shutdown events, the
worker-record count stays exactly `n` in all three pool
implementations, and the number of simultaneously busy workers/slots
never exceeds `n` — also not transiently during the child-process
pool's remove-then-respawn exit handling, which is a single step. -/
theorem pool_worker_count_bounded (n : Nat) (e1 : List WTEvent) (e2 : List WDEvent)
    (e3 : List CPEvent) :
    (wtRun (wtInit n) e1).workers.length = n ∧
    (wdRun (wdInit n) e2).slots.length = n ∧
    (wdRun (wdInit n) e2).slots.countP (·.busy) ≤ n ∧
    (cpRun (cpInit n) e3).workers.length = n ∧
    (cpRun (cpInit n) e3).workers.countP (·.busy) ≤ n := by
  have h1 : (wtRun (wtInit n) e1).workers.length = n :=
    (wtRun_workers_length _ _).trans (List.length_replicate n _)
  have h2 : (wdRun (wdInit n) e2).slots.length = n :=
    (wdRun_slots_length _ _).trans (wdInit_slots_length n)
  have h3 : (cpRun (cpInit n) e3).workers.length = n :=
    (cpRun_workers_length _ _).trans (cpInit_workers_length n)
  refine ⟨h1, h2, ?_, h3, ?_⟩
  · exact (List.countP_le_length _).trans (le_of_eq h2)
  · exact (List.countP_le_length _).trans (le_of_eq h3)

/-- C4: in the `worker_threads` pool with one worker, tasks are handed
to the worker in exactly their submission order: at every reachable
state the `postMessage` order followed by the still-queued tasks equals
the submission order `0, 1, 2, …`, so the started tasks are a prefix of
the submitted ones — pure FIFO, no reordering. -/
theorem wt_tasks_started_in_fifo_submission_order (evs : List WTEvent) :
    (wtRun (wtInit 1) evs).started ++ (wtRun (wtInit 1) evs).queue
        = (wtRun (wtInit 1) evs).submitted ∧
    (wtRun (wtInit 1) evs).submitted = List.range (wtRun (wtInit 1) evs).nextTid ∧
    List.IsPrefix (wtRun (wtInit 1) evs).started (wtRun (wtInit 1) evs).submitted := by
  obtain ⟨h1, h2, h3⟩ := wtFifo_run 1 evs
  exact ⟨h2, h3, ⟨_, h2⟩⟩

/-- C8: shutdown is idempotent in both worker-thread pools: `close()`
(respectively `terminate()`) only terminates every worker, so running
it a second time — from any state, hence also concurrently interleaved
with the first call — is a no-op producing the identical pool state,
and neither call can fail. -/
theorem close_and_terminate_idempotent (s : WTState) (s2 : WDState) :
    wtStep (wtStep s .close) .close = wtStep s .close ∧
    wdStep (wdStep s2 .terminate) .terminate = wdStep s2 .terminate := by
  constructor
  · cases s with
    | mk workers freeWorkers queue resolved started submitted nextTid =>
      simp only [wtStep, List.map_map]
      rfl
  · cases s2 with
    | mk slots queue resolved started submitted nextTid =>
      simp only [wdStep, List.map_map]
      have hslot : ∀ sl ∈ slots,
          ((fun x => { x with worker := x.worker.map (fun _ => false) }) ∘
            (fun x => { x with worker := x.worker.map (fun _ => false) })) sl
            = (fun x => { x with worker := x.worker.map (fun _ => false) }) sl := by
        intro sl _
        show ({ sl with worker := (sl.worker.map (fun _ => false)).map (fun _ => false) }
            : WDSlot) = { sl with worker := sl.worker.map (fun _ => false) }
        cases sl.worker with
        | none => rfl
        | some b => rfl
      rw [List.map_congr_left hslot]

/-- C1 counterexample: in the `worker_threads` pool with one worker,
submit three tasks (task 0 goes to the worker, tasks 1 and 2 queue)
and then `close()`.  The run is deliverable, task 1 is still queued,
nothing has been resolved, and in every deliverable continuation the
resolution log stays empty — so tasks 0, 1 and 2 are left pending
forever after shutdown, refuting exactly-once resolution. -/
theorem wt_close_abandons_queued_task_cex :
    wtValidSeq (wtInit 1) [.runTask, .runTask, .runTask, .close] = true ∧
    1 ∈ (wtRun (wtInit 1) [.runTask, .runTask, .runTask, .close]).queue ∧
    (wtRun (wtInit 1) [.runTask, .runTask, .runTask, .close]).resolved = [] ∧
    (∀ evs, wtValidSeq (wtRun (wtInit 1) [.runTask, .runTask, .runTask, .close]) evs
        = true →
      (wtRun (wtRun (wtInit 1) [.runTask, .runTask, .runTask, .close]) evs).resolved
        = []) := by
  refine ⟨by decide, by decide, by decide, ?_⟩
  intro evs hv
  have hd : ∀ w ∈ (wtRun (wtInit 1) [.runTask, .runTask, .runTask, .close]).workers,
      w.alive = false := by decide
  exact (wtDead_run hd hv).trans (by decide)

/-- C1 amended: every submitted task is resolved **at most** once (the
settlement log never contains a task id twice), but not exactly once:
a task still queued once every worker is terminated — as after
`close()` — is never resolved in any deliverable continuation. -/
theorem wt_resolution_at_most_once_and_lost_after_close
    (n : Nat) (evs : List WTEvent) (t : Nat)
    (hq : t ∈ (wtRun (wtInit n) evs).queue)
    (hdead : ∀ w ∈ (wtRun (wtInit n) evs).workers, w.alive = false) :
    ((wtRun (wtInit n) evs).resolved.map Prod.fst).Nodup ∧
    ∀ evs2, wtValidSeq (wtRun (wtInit n) evs) evs2 = true →
      ∀ b, (t, b) ∉ (wtRun (wtRun (wtInit n) evs) evs2).resolved := by
  obtain ⟨hnd, _, _, _⟩ := wtUniq_run n evs
  constructor
  · exact hnd.of_append_right
  · intro evs2 hv b hmem
    rw [wtDead_run hdead hv] at hmem
    have htmem : t ∈ (wtRun (wtInit n) evs).resolved.map Prod.fst :=
      List.mem_map.mpr ⟨(t, b), hmem, rfl⟩
    exact (List.disjoint_of_nodup_append hnd) (List.mem_append_left _ hq) htmem

/-- C1 witness: the amended theorem applied to the concrete closed
pool; the abandoned task 1 is unresolved also after a further
submission. -/
theorem wt_resolution_at_most_once_and_lost_after_close_witness :
    ((wtRun (wtInit 1)
        [.runTask, .runTask, .runTask, .close]).resolved.map Prod.fst).Nodup ∧
    (1, true) ∉ (wtRun (wtRun (wtInit 1) [.runTask, .runTask, .runTask, .close])
        [.runTask]).resolved ∧
    (1, false) ∉ (wtRun (wtRun (wtInit 1) [.runTask, .runTask, .runTask, .close])
        [.runTask]).resolved := by
  have h := wt_resolution_at_most_once_and_lost_after_close 1
    [.runTask, .runTask, .runTask, .close] 1 (by decide) (by decide)
  exact ⟨h.1, h.2 [.runTask] (by decide) true, h.2 [.runTask] (by decide) false⟩

/-- C2 counterexample: in the demo pool with one slot (take
`queueCapacity = 2` as the claimed bound), after four `execute` calls
the queue already holds 3 > 2 pending tasks, and a further `execute`
is still accepted — no `QueueFullError` — and grows the queue to 4.
The submission path has no capacity check at all. -/
theorem wd_submit_beyond_capacity_accepted_cex :
    wdValidSeq (wdInit 1) [.execute, .execute, .execute, .execute] = true ∧
    (wdRun (wdInit 1) [.execute, .execute, .execute, .execute]).queue.length = 3 ∧
    (wdExecuteOutcome (wdRun (wdInit 1) [.execute, .execute, .execute, .execute])).1
        = .accepted 4 ∧
    (wdStep (wdRun (wdInit 1) [.execute, .execute, .execute, .execute])
        .execute).queue.length = 4 := by
  decide

/-- C2 amended: `execute` never fails: it always hands back a promise,
and when every slot is busy the task is appended to the unbounded
queue — there is no `queueCapacity`, no backpressure and no
`QueueFullError` in the code. -/
theorem wd_execute_never_rejects_queue_unbounded (s : WDState)
    (h : ∀ sl ∈ s.slots, sl.busy = true) :
    (wdExecuteOutcome s).1 = .accepted s.nextTid ∧
    (wdStep s .execute).queue = s.queue ++ [s.nextTid] := by
  refine ⟨rfl, ?_⟩
  rw [wdStep_execute]
  have hf : s.slots.findIdx? (fun sl => !sl.busy) 0 = none :=
    findIdx?_none_of_all (fun a ha => by rw [h a ha]; rfl) 0
  rw [hf]

/-- C2 witness: the amended theorem at a concrete one-slot pool whose
slot is busy. -/
theorem wd_execute_never_rejects_queue_unbounded_witness :
    (wdExecuteOutcome (wdRun (wdInit 1) [.execute])).1 = .accepted 1 ∧
    (wdStep (wdRun (wdInit 1) [.execute]) .execute).queue = [] ++ [1] := by
  have h := wd_execute_never_rejects_queue_unbounded (wdRun (wdInit 1) [.execute])
    (by decide)
  exact ⟨h.1, h.2⟩

/-- C5 counterexample: in the `worker_threads` pool, the worker crashes
(`error`) while task 0 — a first attempt, so with any retry budget
`maxRetries ≥ 1` its attempt count 0 is below the budget — is in
flight.  The task is immediately and permanently rejected, and nothing
is re-enqueued: the queue stays empty.  There is no retry logic. -/
theorem wt_crash_rejects_first_attempt_without_retry_cex :
    wtValidSeq (wtInit 1) [.runTask, .error 0] = true ∧
    (wtRun (wtInit 1) [.runTask, .error 0]).resolved = [(0, false)] ∧
    (wtRun (wtInit 1) [.runTask, .error 0]).queue = [] := by
  decide

/-- C5 amended: when a worker errors with a task in flight, the task's
promise is immediately rejected with the worker's error — regardless
of any attempt count — and the task is never re-enqueued and never
handed to another worker: the queue and the start log are unchanged. -/
theorem wt_error_rejects_inflight_never_requeues (s : WTState) (w t : Nat)
    (wk : WTWorker) (hw : s.workers.get? w = some wk)
    (ht : wk.currentTask = some t) :
    (wtStep s (.error w)).resolved = s.resolved ++ [(t, false)] ∧
    (wtStep s (.error w)).queue = s.queue ∧
    (wtStep s (.error w)).started = s.started := by
  have hb : (s.workers.get? w).bind (·.currentTask) = some t := by
    rw [hw]
    exact ht
  rw [wtStep_error_some hb]
  exact ⟨rfl, rfl, rfl⟩

/-- C5 witness: the amended theorem at the concrete one-worker pool
with task 0 in flight. -/
theorem wt_error_rejects_inflight_never_requeues_witness :
    (wtStep (wtRun (wtInit 1) [.runTask]) (.error 0)).resolved = [(0, false)] ∧
    (wtStep (wtRun (wtInit 1) [.runTask]) (.error 0)).queue = [] ∧
    (wtStep (wtRun (wtInit 1) [.runTask]) (.error 0)).started = [0] := by
  have h := wt_error_rejects_inflight_never_requeues (wtRun (wtInit 1) [.runTask]) 0 0
    ⟨true, some 0⟩ (by decide) rfl
  exact ⟨h.1, h.2.1, h.2.2⟩

/-- C6 counterexample: in the child-process pool of size 2 (take
`crashBudget = 2`, so three crashes exceed it within any window),
after three worker exits the supervisor has respawned every time —
the pool again holds 2 workers, none degraded — and a subsequent
submission is still accepted, not rejected with
`PoolCrashBudgetExceededError`.  There is no crash budget, no
`Degraded` state and no respawn stop in the code. -/
theorem cp_respawns_past_crash_budget_cex :
    cpValidSeq (cpInit 2) [.exit 0, .exit 1, .exit 2] = true ∧
    (cpRun (cpInit 2) [.exit 0, .exit 1, .exit 2]).workers.length = 2 ∧
    (cpRunTaskOutcome (cpRun (cpInit 2) [.exit 0, .exit 1, .exit 2])).1
        = .accepted 0 := by
  decide

/-- C6 amended: every exit of an existing worker triggers an immediate
unconditional respawn (the worker count is restored in the same step),
and a submission is never rejected — the pool never stops respawning
and never surfaces a crash-budget error. -/
theorem cp_exit_always_respawns_submit_always_accepted (s : CPState) (wid : Nat)
    (h : (cpFind s wid).isSome = true) :
    cpStep s (.exit wid) = cpCreateWorker { s with workers := cpRemoveWid wid s.workers } ∧
    (cpStep s (.exit wid)).workers.length = s.workers.length ∧
    ∀ s2 : CPState, (cpRunTaskOutcome s2).1 = .accepted s2.nextTid :=
  ⟨cpStep_exit_of_present h, cpStep_workers_length s (.exit wid), fun _ => rfl⟩

/-- C6 witness: the amended theorem at the fresh two-worker pool. -/
theorem cp_exit_always_respawns_submit_always_accepted_witness :
    cpStep (cpInit 2) (.exit 0)
        = cpCreateWorker { cpInit 2 with workers := cpRemoveWid 0 (cpInit 2).workers } ∧
    (cpStep (cpInit 2) (.exit 0)).workers.length = 2 ∧
    (cpRunTaskOutcome (cpInit 2)).1 = .accepted 0 := by
  have h := cp_exit_always_respawns_submit_always_accepted (cpInit 2) 0 (by decide)
  exact ⟨h.1, h.2.1, h.2.2 (cpInit 2)⟩

/-- C7 counterexample: `close()` on the one-worker pool with task 1
still queued.  A submission after `close` is still accepted — it is
not rejected with `PoolClosedError`, the code sets no closed flag —
and the queued task does not drain: in every deliverable continuation
nothing is ever resolved, because every worker is terminated. -/
theorem wt_submit_after_close_accepted_queue_stuck_cex :
    wtValidSeq (wtInit 1) [.runTask, .runTask, .close] = true ∧
    (wtRunTaskOutcome (wtRun (wtInit 1) [.runTask, .runTask, .close])).1
        = .accepted 2 ∧
    1 ∈ (wtRun (wtInit 1) [.runTask, .runTask, .close]).queue ∧
    (∀ evs, wtValidSeq (wtRun (wtInit 1) [.runTask, .runTask, .close]) evs = true →
      (wtRun (wtRun (wtInit 1) [.runTask, .runTask, .close]) evs).resolved = []) := by
  refine ⟨by decide, by decide, by decide, ?_⟩
  intro evs hv
  have hd : ∀ w ∈ (wtRun (wtInit 1) [.runTask, .runTask, .close]).workers,
      w.alive = false := by decide
  exact (wtDead_run hd hv).trans (by decide)

/-- C7 amended: `close()` does not flip the pool into a closed state:
a submission after `close` is still accepted (never `PoolClosedError`),
and tasks queued at `close` do not drain — `close` terminates every
worker, so after it no task is ever resolved in any deliverable
continuation. -/
theorem wt_close_no_reject_and_nothing_drains (s : WTState) (evs : List WTEvent)
    (hv : wtValidSeq (wtStep s .close) evs = true) :
    (wtRunTaskOutcome (wtStep s .close)).1 = .accepted s.nextTid ∧
    (wtStep s .close).queue = s.queue ∧
    (wtRun (wtStep s .close) evs).resolved = s.resolved := by
  exact ⟨rfl, rfl, (wtDead_run (wtClose_dead s) hv).trans rfl⟩

/-- C7 witness: the amended theorem at the concrete pool with a queued
task, continued by one further submission. -/
theorem wt_close_no_reject_and_nothing_drains_witness :
    (wtRunTaskOutcome (wtStep (wtRun (wtInit 1) [.runTask, .runTask]) .close)).1
        = .accepted 2 ∧
    (wtStep (wtRun (wtInit 1) [.runTask, .runTask]) .close).queue = [1] ∧
    (wtRun (wtStep (wtRun (wtInit 1) [.runTask, .runTask]) .close)
        [.runTask]).resolved = [] := by
  have h := wt_close_no_reject_and_nothing_drains (wtRun (wtInit 1) [.runTask, .runTask])
    [.runTask] (by decide)
  exact ⟨h.1, h.2.1, h.2.2⟩

/-- C9: in the child-process pool every `exit` of an existing worker
removes it and immediately pushes a freshly forked replacement (not
busy, not killed) — the handler is unconditional, so this also fires
for exits caused by `destroy()`: after `destroy()` on a pool of size 2
and the two resulting exits, the pool again holds 2 live, unkilled
workers instead of stopping at zero. -/
theorem cp_exit_respawns_even_after_destroy (s : CPState) (wid : Nat)
    (h : (cpFind s wid).isSome = true) :
    (cpStep s (.exit wid)).workers.length = s.workers.length ∧
    (cpStep s (.exit wid)).workers.getLast?
        = some ⟨s.nextWid, false, none, false⟩ ∧
    ((cpRun (cpInit 2) [.destroy, .exit 0, .exit 1]).workers.length = 2 ∧
      ∀ w ∈ (cpRun (cpInit 2) [.destroy, .exit 0, .exit 1]).workers,
        w.killed = false) := by
  refine ⟨cpStep_workers_length s (.exit wid), ?_, by decide, by decide⟩
  rw [cpStep_exit_of_present h]
  exact List.getLast?_concat _

/-- C9 witness: the theorem applied at the fresh two-worker pool. -/
theorem cp_exit_respawns_even_after_destroy_witness :
    (cpStep (cpInit 2) (.exit 0)).workers.length = 2 ∧
    (cpStep (cpInit 2) (.exit 0)).workers.getLast? = some ⟨2, false, none, false⟩ := by
  have h := cp_exit_respawns_even_after_destroy (cpInit 2) 0 (by decide)
  exact ⟨h.1, h.2.1⟩

/-- C10: in the `worker_threads` pool, a worker `error` with a task in
flight rejects that task but leaves `freeWorkers` untouched and never
replaces the worker (the worker array keeps its length and no worker
is added); once this leaves every worker dead, the resolution log is
frozen forever: tasks already queued and promises returned by later
`runTask` calls are never settled in any deliverable continuation. -/
theorem wt_errored_worker_never_freed_pool_starves (s : WTState) (w t : Nat)
    (wk : WTWorker) (hw : s.workers.get? w = some wk)
    (ht : wk.currentTask = some t)
    (hdead : ∀ x ∈ (wtStep s (.error w)).workers, x.alive = false) :
    (wtStep s (.error w)).freeWorkers = s.freeWorkers ∧
    (wtStep s (.error w)).workers.length = s.workers.length ∧
    (wtStep s (.error w)).resolved = s.resolved ++ [(t, false)] ∧
    ∀ evs, wtValidSeq (wtStep s (.error w)) evs = true →
      (wtRun (wtStep s (.error w)) evs).resolved = s.resolved ++ [(t, false)] := by
  have hb : (s.workers.get? w).bind (·.currentTask) = some t := by
    rw [hw]
    exact ht
  refine ⟨?_, wtStep_workers_length s (.error w), ?_, ?_⟩
  · rw [wtStep_error_some hb]
  · rw [wtStep_error_some hb]
  · intro evs hv
    rw [wtDead_run hdead hv, wtStep_error_some hb]

/-- C10 witness: the one-worker pool with task 0 in flight; after its
worker errors, a later submission (task 1) is queued and the log stays
frozen at the single rejection. -/
theorem wt_errored_worker_never_freed_pool_starves_witness :
    (wtStep (wtRun (wtInit 1) [.runTask]) (.error 0)).freeWorkers = [] ∧
    (wtStep (wtRun (wtInit 1) [.runTask]) (.error 0)).workers.length = 1 ∧
    (wtStep (wtRun (wtInit 1) [.runTask]) (.error 0)).resolved = [(0, false)] ∧
    (wtRun (wtStep (wtRun (wtInit 1) [.runTask]) (.error 0)) [.runTask]).resolved
        = [(0, false)] := by
  have h := wt_errored_worker_never_freed_pool_starves (wtRun (wtInit 1) [.runTask])
    0 0 ⟨true, some 0⟩ (by decide) rfl (by decide)
  exact ⟨h.1, h.2.1, h.2.2.1, h.2.2.2 [.runTask] (by decide)⟩
